import Mathlib

/-
Verification of the directory layer and syscall boundary of the
Operating-System repository (src/filesys/directory.c, src/userprog/syscall.c).

Shallow embedding conventions:
  - The directory entry table stored in a directory inode's byte stream is a
    List DirEntry; offsets are counted in records (the C code advances byte
    offsets in strides of sizeof (struct dir_entry), and inode_read_at only
    returns a short read at end of file, so a record index is readable exactly
    when it is below the list length).
  - Results of the external inode collaborator (inode_open, inode_add_parent,
    inode_write_at) are passed in as explicit parameters or as a map from
    sector numbers to inode observations, since that collaborator is outside
    the repository core.
  - A write of a full record either happens or it does not: writeOk = true
    models inode_write_at returning sizeof e, writeOk = false a short write,
    in which case dir_add and dir_remove report failure and the mutation is
    not committed (the abstraction the spec assigns to short writes).
-/

namespace OSV

/-- NAME_MAX bound on a directory entry name, from filesys/directory.h.
The header is not part of src; the Pintos value is 14.  Only the bound
itself is consulted by dir_add. -/
def NAME_MAX : Nat := 14

/-- ROOT_DIR_SECTOR, the reserved sector of the root directory.  dir_remove
hard-codes the literal 1 in its root guard, fixing the value. -/
def ROOT_DIR_SECTOR : Nat := 1

/-- struct dir_entry from directory.c: header sector, null-terminated name,
in-use flag. -/
structure DirEntry where
  inode_sector : Nat
  name : String
  in_use : Bool
deriving DecidableEq

/-- lookup from directory.c: linear scan from offset 0 in record strides,
returning the first record with in_use set and a matching name together with
its record offset; the short terminal read ends the scan as not-found. -/
def lookup : List DirEntry → String → Option (DirEntry × Nat)
  | [], _ => none
  | e :: es, n =>
    if e.in_use ∧ e.name = n then some (e, 0)
    else (lookup es n).map (fun p => (p.1, p.2 + 1))

/-- Contribution of one record to the number of in-use entries carrying a
given name. -/
def hit (e : DirEntry) (n : String) : Nat := if e.in_use ∧ e.name = n then 1 else 0

/-- Number of in-use entries with the given name in a table. -/
def countName (s : List DirEntry) (n : String) : Nat := (s.map (fun e => hit e n)).sum

/-- The table invariant: among in-use entries, names are pairwise distinct. -/
def uniqueNames (s : List DirEntry) : Prop :=
  ((s.filter (fun e => e.in_use)).map DirEntry.name).Nodup

instance (s : List DirEntry) : Decidable (uniqueNames s) := by
  unfold uniqueNames; infer_instance

/-- Overwrite the record at the given index, appending when the index is the
table length (the end-of-file slot dir_add writes when no slot is free). -/
def writeEntry : List DirEntry → Nat → DirEntry → List DirEntry
  | [], _, e => [e]
  | _ :: xs, 0, e => e :: xs
  | x :: xs, i + 1, e => x :: writeEntry xs i e

/-- Offset of the first record with in_use clear, or the table length when
every record is in use (dir_add's slot-search loop). -/
def firstFreeSlot : List DirEntry → Nat
  | [] => 0
  | e :: es => if e.in_use then firstFreeSlot es + 1 else 0

/-- dir_add from directory.c.  parentOk is the result of
inode_add_parent(inumber of this dir, inode_sector); writeOk tells whether
inode_write_at wrote the full record.  Guard order as in the source: name
validity, duplicate lookup, parent link, then slot search and write. -/
def dir_add (s : List DirEntry) (name : String) (inode_sector : Nat)
    (parentOk : Bool) (writeOk : Bool) : Bool × List DirEntry :=
  if name = "" ∨ name.length > NAME_MAX then (false, s)
  else
    match lookup s name with
    | some _ => (false, s)
    | none =>
      if parentOk then
        if writeOk then (true, writeEntry s (firstFreeSlot s) ⟨inode_sector, name, true⟩)
        else (false, s)
      else (false, s)

/-- Observation of an opened inode as dir_remove and the path resolver
consult it: the is-directory flag, the open count as inode_get_open_cnt
returns it after this operation's own inode_open, the stored parent sector,
and, for a directory, the entry table held in its byte stream. -/
structure InodeInfo where
  is_dir : Bool
  open_cnt : Nat
  parent : Nat
  entries : List DirEntry
deriving DecidableEq

/-- The inode collaborator's sector map: inode_open on a sector yields the
observation, or none when the open fails. -/
structure FS where
  inodes : Nat → Option InodeInfo

/-- dir_is_empty from directory.c: full scan testing for any in-use record. -/
def dir_is_empty (entries : List DirEntry) : Bool := entries.all (fun e => !e.in_use)

/-- dir_remove from directory.c.  oi models inode_open on the entry's sector;
inode_get_inumber of the opened inode is the sector itself, so the root guard
compares e.inode_sector with the literal 1.  Guard order as in the source:
lookup, open, open-count, root, emptiness, then the full-record rewrite. -/
def dir_remove (s : List DirEntry) (name : String)
    (oi : Nat → Option InodeInfo) (writeOk : Bool) : Bool × List DirEntry :=
  match lookup s name with
  | none => (false, s)
  | some (e, ofs) =>
    match oi e.inode_sector with
    | none => (false, s)
    | some ino =>
      if ino.is_dir ∧ ino.open_cnt > 1 then (false, s)
      else if ino.is_dir ∧ e.inode_sector = ROOT_DIR_SECTOR then (false, s)
      else if ino.is_dir ∧ dir_is_empty ino.entries = false then (false, s)
      else if writeOk then (true, writeEntry s ofs { e with in_use := false })
      else (false, s)

/-- Scan of dir_readdir: each call advances the cursor one record at a time,
skipping records with in_use clear, until a used record or end of stream. -/
def readdirAux : List DirEntry → Nat → Option String × Nat
  | [], pos => (none, pos)
  | e :: es, pos =>
    if e.in_use then (some e.name, pos + 1) else readdirAux es (pos + 1)

/-- dir_readdir from directory.c: resume from the handle's cursor pos (in
records), return the next in-use name and the advanced cursor, or none at
end of stream. -/
def dir_readdir (entries : List DirEntry) (pos : Nat) : Option String × Nat :=
  readdirAux (entries.drop pos) pos

/-- Emit the accumulated component, if any (strtok_r yields only nonempty
components). -/
def flushTok (acc : List Char) : List String :=
  if acc = [] then [] else [String.mk acc.reverse]

/-- Split a character list on the slash, dropping empty components, as
strtok_r with delimiter set "/" does. -/
def tokenizeAux : List Char → List Char → List String
  | [], acc => flushTok acc
  | c :: cs, acc =>
    if c = '/' then flushTok acc ++ tokenizeAux cs []
    else tokenizeAux cs (c :: acc)

/-- The ordered nonempty components of a path. -/
def tokenize (path : String) : List String := tokenizeAux path.data []

/-- The token/next_token iteration of get_file_name and get_containing_dir:
the last element of the token list, none when there is no token at all. -/
def lastTok : List String → Option String
  | [] => none
  | [t] => some t
  | _ :: t :: ts => lastTok (t :: ts)

/-- get_file_name from directory.c: the final component of the path.  When
the path has no component (only separators, or empty), strtok_r leaves token
NULL and the source calls strlen(NULL), dereferencing a null pointer; that
case is modeled as none. -/
def get_file_name (path : String) : Option String := lastTok (tokenize path)

/-- Result of get_containing_dir: a handle on a directory sector, a NULL
return, or C undefined behavior (the source reads the uninitialized
next_token when the path has no component, and dereferences a NULL handle
inside the loop when the start anchor could not be opened). -/
inductive GcdRes where
  | ok : Nat → GcdRes
  | fail : GcdRes
  | undef : GcdRes
deriving DecidableEq

/-- The component loop of get_containing_dir.  The current handle is the
sector plus its inode observation (none models a NULL handle).  Only
components with a successor are processed: "." is skipped entirely, ".."
opens the stored parent (NULL return on open failure), any other component
goes through dir_lookup (NULL return on failure); a directory target
replaces the current handle, a plain-file target is closed and the current
handle is kept. -/
def gcdLoop (fs : FS) : Option (Nat × InodeInfo) → List String → GcdRes
  | some (d, _), [] => GcdRes.ok d
  | none, [] => GcdRes.fail
  | some (d, _), [_] => GcdRes.ok d
  | none, [_] => GcdRes.fail
  | none, t :: next :: rest =>
    if t = "." then gcdLoop fs none (next :: rest) else GcdRes.undef
  | some (d, dino), t :: next :: rest =>
    if t = "." then gcdLoop fs (some (d, dino)) (next :: rest)
    else if t = ".." then
      match fs.inodes dino.parent with
      | none => GcdRes.fail
      | some p =>
        if p.is_dir then gcdLoop fs (some (dino.parent, p)) (next :: rest)
        else gcdLoop fs (some (d, dino)) (next :: rest)
    else
      match lookup dino.entries t with
      | none => GcdRes.fail
      | some (e, _) =>
        match fs.inodes e.inode_sector with
        | none => GcdRes.fail
        | some ino =>
          if ino.is_dir then gcdLoop fs (some (e.inode_sector, ino)) (next :: rest)
          else gcdLoop fs (some (d, dino)) (next :: rest)

/-- First byte of the path equals ASCII_SLASH (an empty path has first byte
NUL, so it is not absolute). -/
def startsWithSlash : List Char → Bool
  | [] => false
  | c :: _ => c == '/'

/-- get_containing_dir from directory.c.  The anchor is the root sector when
the path is absolute or the caller has no working directory, otherwise a
reopen of the working directory.  With no component at all, next_token is
read uninitialized: undefined behavior. -/
def get_containing_dir (fs : FS) (cwd : Option Nat) (path : String) : GcdRes :=
  let startSec : Nat :=
    match cwd with
    | none => ROOT_DIR_SECTOR
    | some c => if startsWithSlash path.data then ROOT_DIR_SECTOR else c
  match tokenize path with
  | [] => GcdRes.undef
  | t :: ts => gcdLoop fs ((fs.inodes startSec).map (fun i => (startSec, i))) (t :: ts)

/-- struct file_elem from syscall.c, as the file-facing syscalls observe it:
the descriptor number, the directory flag, the inumber of the underlying
inode, and for a directory handle its entry table and cursor (in records). -/
structure FileElem where
  fd : Int
  isdir : Bool
  inum : Nat
  entries : List DirEntry
  pos : Nat
deriving DecidableEq

/-- find_file_elem from syscall.c: first entry of the calling process's
descriptor list with the given fd. -/
def find_file_elem (proc : List FileElem) (fd : Int) : Option FileElem :=
  proc.find? (fun fe => fe.fd == fd)

/-- The while loop of the console branch of write: transfers of exactly 512
bytes while more than 512 remain, then one final transfer of the rest. -/
def consoleChunksRest (buf : List Nat) : List (List Nat) :=
  if buf.length > 512 then buf.take 512 :: consoleChunksRest (buf.drop 512)
  else [buf]
termination_by buf.length
decreasing_by simp [List.length_drop]; omega

/-- The console branch of write in syscall.c: a single putbuf when fewer
than 512 bytes are requested, otherwise the chunking loop. -/
def consoleChunks (buf : List Nat) : List (List Nat) :=
  if buf.length < 512 then [buf] else consoleChunksRest buf

/-- The written counter of the console branch: it accumulates exactly the
transfer sizes. -/
def consoleWritten (buf : List Nat) : Nat := ((consoleChunks buf).map List.length).sum

/-- Outcome of the write syscall: process termination, console output (the
sequence of putbuf transfers plus the returned count), or delegation to
file_write. -/
inductive WriteRes where
  | exited : Int → WriteRes
  | console : List (List Nat) → Nat → WriteRes
  | toFile : Int → WriteRes
deriving DecidableEq

/-- write from syscall.c.  fd 0 terminates the process with status -1; fd 1
runs the chunked console path; any other fd is looked up in the caller's
descriptor list, terminating with -1 when absent and otherwise returning
whatever file_write reports (passed in as fileWriteRet). -/
def write_syscall (proc : List FileElem) (fileWriteRet : Int) (fd : Int)
    (buf : List Nat) : WriteRes :=
  if fd = 0 then WriteRes.exited (-1)
  else if fd = 1 then WriteRes.console (consoleChunks buf) (consoleWritten buf)
  else
    match find_file_elem proc fd with
    | none => WriteRes.exited (-1)
    | some _ => WriteRes.toFile fileWriteRet

/-- readdir from syscall.c: false when the fd is unknown or not a directory
descriptor or dir_readdir is exhausted; otherwise true with the name
dir_readdir stored. -/
def readdir_sys (proc : List FileElem) (fd : Int) : Bool × Option String :=
  match find_file_elem proc fd with
  | none => (false, none)
  | some fe =>
    if fe.isdir = false then (false, none)
    else
      match dir_readdir fe.entries fe.pos with
      | (none, _) => (false, none)
      | (some nm, _) => (true, some nm)

/-- inumber from syscall.c.  The function is declared bool, so the C return
statement converts the block_sector_t inumber to a boolean: any nonzero id
collapses to true, an unknown fd gives false. -/
def inumber_sys (proc : List FileElem) (fd : Int) : Bool :=
  match find_file_elem proc fd with
  | none => false
  | some fe => fe.inum != 0

/-- A user stack frame at syscall entry: the stack pointer and user memory,
both in units of 4-byte words (the integer value of the pointer expression
esp+1 is modeled as the word address esp+1). -/
structure UserFrame where
  esp : Nat
  mem : Nat → Int

/-- The SYS_READDIR dispatch of syscall_handler: the source passes the
pointer (int *)(esp+1) itself, cast to int, as the fd argument, not the
dereferenced value *(esp+1). -/
def handle_readdir (fr : UserFrame) (proc : List FileElem) : Bool × Option String :=
  readdir_sys proc (Int.ofNat (fr.esp + 1))

/-- The SYS_INUMBER dispatch of syscall_handler: likewise passes the pointer
value esp+1, not the stored fd. -/
def handle_inumber (fr : UserFrame) (proc : List FileElem) : Bool :=
  inumber_sys proc (Int.ofNat (fr.esp + 1))

/-- One directory-table operation, with the collaborator responses it needs. -/
inductive Op where
  | add : String → Nat → Bool → Bool → Op
  | remove : String → (Nat → Option InodeInfo) → Bool → Op

/-- Apply one operation to a table, yielding the success flag and the new
table. -/
def applyOp (s : List DirEntry) : Op → Bool × List DirEntry
  | Op.add n sec pa wa => dir_add s n sec pa wa
  | Op.remove n oi wo => dir_remove s n oi wo

/-- Tables reachable from the freshly created empty directory through the
table operations. -/
inductive Reachable : List DirEntry → Prop where
  | init : Reachable []
  | step : ∀ s op, Reachable s → Reachable (applyOp s op).2

/-- Run a sequence of operations, keeping only the table. -/
def runOps : List DirEntry → List Op → List DirEntry
  | s, [] => s
  | s, op :: ops => runOps (applyOp s op).2 ops

/-- No operation of the sequence is a remove of the given name that
succeeds in the state where it runs. -/
def noRemoveSuccess (name : String) : List DirEntry → List Op → Prop
  | _, [] => True
  | s, op :: ops =>
    (∀ oi wo, op = Op.remove name oi wo → (applyOp s op).1 = false) ∧
    noRemoveSuccess name (applyOp s op).2 ops

theorem countName_nil (n : String) : countName [] n = 0 := rfl

theorem countName_cons (e : DirEntry) (s : List DirEntry) (n : String) :
    countName (e :: s) n = hit e n + countName s n := by
  simp [countName]

theorem hit_of_not_in_use {e : DirEntry} (n : String) (h : e.in_use = false) :
    hit e n = 0 := by simp [hit, h]

theorem hit_of_name_ne {e : DirEntry} {n : String} (h : e.name ≠ n) :
    hit e n = 0 := by simp [hit, h]

theorem hit_of_match {e : DirEntry} {n : String} (h1 : e.in_use = true)
    (h2 : e.name = n) : hit e n = 1 := by simp [hit, h1, h2]

theorem hit_eq_zero_iff (e : DirEntry) (n : String) :
    hit e n = 0 ↔ ¬(e.in_use = true ∧ e.name = n) := by
  unfold hit; split <;> simp_all

theorem lookup_eq_none_iff (s : List DirEntry) (n : String) :
    lookup s n = none ↔ ∀ e ∈ s, ¬(e.in_use = true ∧ e.name = n) := by
  induction s with
  | nil => simp [lookup]
  | cons x xs ih =>
    simp only [lookup]
    by_cases hx : x.in_use ∧ x.name = n
    · rw [if_pos hx]
      simp only [List.mem_cons]
      constructor
      · intro h; cases h
      · intro h; exact absurd hx (h x (Or.inl rfl))
    · rw [if_neg hx]
      simp only [Option.map_eq_none', ih, List.mem_cons]
      constructor
      · intro h e he
        rcases he with he | he
        · subst he; exact hx
        · exact h e he
      · intro h e he; exact h e (Or.inr he)

theorem lookup_some_spec :
    ∀ (s : List DirEntry) (n : String) (e : DirEntry) (i : Nat),
      lookup s n = some (e, i) →
      s.get? i = some e ∧ e.in_use = true ∧ e.name = n := by
  intro s
  induction s with
  | nil => intro n e i h; simp [lookup] at h
  | cons x xs ih =>
    intro n e i h
    simp only [lookup] at h
    by_cases hx : x.in_use ∧ x.name = n
    · rw [if_pos hx] at h
      simp only [Option.some.injEq, Prod.mk.injEq] at h
      obtain ⟨he, hi⟩ := h
      subst he; subst hi
      exact ⟨rfl, hx.1, hx.2⟩
    · rw [if_neg hx] at h
      cases hl : lookup xs n with
      | none => rw [hl] at h; simp at h
      | some p =>
        obtain ⟨pe, pi⟩ := p
        rw [hl] at h
        simp only [Option.map_some', Option.some.injEq, Prod.mk.injEq] at h
        obtain ⟨he, hi⟩ := h
        subst he; subst hi
        obtain ⟨h1, h2, h3⟩ := ih n pe pi hl
        exact ⟨h1, h2, h3⟩

theorem countName_eq_zero_iff (s : List DirEntry) (n : String) :
    countName s n = 0 ↔ ∀ e ∈ s, ¬(e.in_use = true ∧ e.name = n) := by
  induction s with
  | nil => simp [countName_nil]
  | cons x xs ih =>
    rw [countName_cons]
    constructor
    · intro h e he
      have h1 : hit x n = 0 := by omega
      have h2 : countName xs n = 0 := by omega
      rcases List.mem_cons.mp he with rfl | he'
      · exact (hit_eq_zero_iff e n).mp h1
      · exact (ih.mp h2) e he'
    · intro h
      have h1 : hit x n = 0 :=
        (hit_eq_zero_iff x n).mpr (h x (List.mem_cons_self x xs))
      have h2 : countName xs n = 0 :=
        ih.mpr (fun e he => h e (List.mem_cons_of_mem x he))
      omega

theorem lookup_none_iff_countName (s : List DirEntry) (n : String) :
    lookup s n = none ↔ countName s n = 0 := by
  rw [lookup_eq_none_iff, countName_eq_zero_iff]

theorem countName_pos_of_lookup_some {s : List DirEntry} {n : String}
    {e : DirEntry} {i : Nat} (h : lookup s n = some (e, i)) :
    0 < countName s n := by
  by_contra hc
  have h0 : countName s n = 0 := by omega
  rw [← lookup_none_iff_countName] at h0
  rw [h0] at h
  cases h

theorem lookup_isSome_of_countName_pos {s : List DirEntry} {n : String}
    (h : 0 < countName s n) : (lookup s n).isSome := by
  cases hl : lookup s n with
  | none =>
    rw [lookup_none_iff_countName] at hl
    omega
  | some p => rfl

theorem writeEntry_countName (e' : DirEntry) (n : String) :
    ∀ (s : List DirEntry) (i : Nat) (old : DirEntry), s.get? i = some old →
      countName (writeEntry s i e') n + hit old n = countName s n + hit e' n := by
  intro s
  induction s with
  | nil => intro i old h; simp at h
  | cons x xs ih =>
    intro i old h
    cases i with
    | zero =>
      simp only [List.get?_cons_zero, Option.some.injEq] at h
      subst h
      simp only [writeEntry, countName_cons]
      omega
    | succ j =>
      simp only [List.get?_cons_succ] at h
      have := ih j old h
      simp only [writeEntry, countName_cons]
      omega

theorem writeEntry_at_length (e : DirEntry) :
    ∀ (s : List DirEntry), writeEntry s s.length e = s ++ [e] := by
  intro s
  induction s with
  | nil => rfl
  | cons x xs ih => simp [writeEntry, List.length_cons, ih]

theorem countName_append (s : List DirEntry) (e : DirEntry) (n : String) :
    countName (s ++ [e]) n = countName s n + hit e n := by
  simp [countName]

theorem firstFreeSlot_le (s : List DirEntry) : firstFreeSlot s ≤ s.length := by
  induction s with
  | nil => simp [firstFreeSlot]
  | cons x xs ih =>
    simp only [firstFreeSlot, List.length_cons]
    split <;> omega

theorem firstFreeSlot_spec (s : List DirEntry) :
    (firstFreeSlot s = s.length ∧ ∀ e ∈ s, e.in_use = true) ∨
    (∃ old, s.get? (firstFreeSlot s) = some old ∧ old.in_use = false ∧
      ∀ j, j < firstFreeSlot s → ∀ e, s.get? j = some e → e.in_use = true) := by
  induction s with
  | nil => left; exact ⟨rfl, by simp⟩
  | cons x xs ih =>
    by_cases hx : x.in_use = true
    · have hffs : firstFreeSlot (x :: xs) = firstFreeSlot xs + 1 := by
        simp [firstFreeSlot, hx]
      rcases ih with ⟨h1, h2⟩ | ⟨old, h1, h2, h3⟩
      · left
        constructor
        · simp [hffs, h1]
        · intro e he
          rcases List.mem_cons.mp he with rfl | he'
          · exact hx
          · exact h2 e he'
      · right
        refine ⟨old, ?_, h2, ?_⟩
        · rw [hffs]; simpa using h1
        · intro j hj e hje
          cases j with
          | zero =>
            simp only [List.get?_cons_zero, Option.some.injEq] at hje
            subst hje
            exact hx
          | succ k =>
            rw [hffs] at hj
            exact h3 k (by omega) e (by simpa using hje)
    · have hx' : x.in_use = false := by
        revert hx; cases x.in_use <;> simp
      have hffs : firstFreeSlot (x :: xs) = 0 := by simp [firstFreeSlot, hx']
      right
      refine ⟨x, by simp [hffs], hx', ?_⟩
      intro j hj e hje
      rw [hffs] at hj
      omega

theorem lookup_writeEntry_hit (n : String) (newE : DirEntry)
    (h1 : newE.in_use = true) (h2 : newE.name = n) :
    ∀ (s : List DirEntry) (i : Nat), i ≤ s.length →
      (∀ e ∈ s, ¬(e.in_use = true ∧ e.name = n)) →
      lookup (writeEntry s i newE) n = some (newE, i) := by
  intro s
  induction s with
  | nil =>
    intro i hi _
    have hz : i = 0 := by simpa using hi
    subst hz
    simp [writeEntry, lookup, h1, h2]
  | cons x xs ih =>
    intro i hi hall
    cases i with
    | zero => simp [writeEntry, lookup, h1, h2]
    | succ j =>
      have hx := hall x (List.mem_cons_self x xs)
      simp only [writeEntry, lookup]
      rw [if_neg hx]
      rw [ih j (by simpa using hi) (fun e he => hall e (List.mem_cons_of_mem x he))]
      rfl

theorem dir_add_cases (s : List DirEntry) (name : String) (sec : Nat) (pa wa : Bool) :
    dir_add s name sec pa wa = (false, s) ∨
    (lookup s name = none ∧ pa = true ∧ wa = true ∧
      dir_add s name sec pa wa =
        (true, writeEntry s (firstFreeSlot s) ⟨sec, name, true⟩)) := by
  unfold dir_add
  split
  · exact Or.inl rfl
  · cases hl : lookup s name with
    | some p => exact Or.inl rfl
    | none =>
      cases pa with
      | false => left; simp
      | true =>
        cases wa with
        | false => left; simp
        | true => right; exact ⟨rfl, rfl, rfl, by simp⟩

theorem dir_remove_cases (s : List DirEntry) (name : String)
    (oi : Nat → Option InodeInfo) (wo : Bool) :
    dir_remove s name oi wo = (false, s) ∨
    (∃ e ofs, lookup s name = some (e, ofs) ∧
      dir_remove s name oi wo = (true, writeEntry s ofs { e with in_use := false })) := by
  unfold dir_remove
  split
  · exact Or.inl rfl
  next e ofs hl =>
    split
    · exact Or.inl rfl
    next ino ho =>
      split
      · exact Or.inl rfl
      · split
        · exact Or.inl rfl
        · split
          · exact Or.inl rfl
          · split
            · right; exact ⟨e, ofs, hl, rfl⟩
            · exact Or.inl rfl

theorem countName_eq_count (s : List DirEntry) (n : String) :
    countName s n = ((s.filter (fun e => e.in_use)).map DirEntry.name).count n := by
  induction s with
  | nil => rfl
  | cons x xs ih =>
    rw [countName_cons, ih]
    by_cases hx : x.in_use = true
    · rw [List.filter_cons, if_pos (by simp [hx]), List.map_cons, List.count_cons]
      by_cases hn : x.name = n
      · rw [hit_of_match hx hn, if_pos (by simp [hn])]
        omega
      · rw [hit_of_name_ne hn, if_neg (by simp [hn])]
        omega
    · have hx' : x.in_use = false := by revert hx; cases x.in_use <;> simp
      rw [hit_of_not_in_use n hx', List.filter_cons, if_neg (by simp [hx'])]
      omega

theorem uniqueNames_iff (s : List DirEntry) :
    uniqueNames s ↔ ∀ n, countName s n ≤ 1 := by
  unfold uniqueNames
  rw [List.nodup_iff_count_le_one]
  constructor
  · intro h n; rw [countName_eq_count]; exact h n
  · intro h n; rw [← countName_eq_count]; exact h n

theorem dir_add_preserves_unique (s : List DirEntry) (name : String) (sec : Nat)
    (pa wa : Bool) (h : ∀ n, countName s n ≤ 1) :
    ∀ n, countName (dir_add s name sec pa wa).2 n ≤ 1 := by
  rcases dir_add_cases s name sec pa wa with heq | ⟨hnone, _, _, heq⟩
  · rw [heq]; exact h
  · have h2 : (dir_add s name sec pa wa).2 =
        writeEntry s (firstFreeSlot s) ⟨sec, name, true⟩ := by rw [heq]
    rw [h2]
    intro n
    have hzero : countName s name = 0 := (lookup_none_iff_countName s name).mp hnone
    rcases firstFreeSlot_spec s with ⟨hlen, _⟩ | ⟨old, hget, hfree, _⟩
    · rw [hlen, writeEntry_at_length, countName_append]
      by_cases hn : name = n
      · subst hn
        rw [hit_of_match rfl rfl]
        omega
      · rw [hit_of_name_ne hn]
        have := h n
        omega
    · have key := writeEntry_countName (⟨sec, name, true⟩ : DirEntry) n s
        (firstFreeSlot s) old hget
      rw [hit_of_not_in_use n hfree] at key
      by_cases hn : name = n
      · subst hn
        rw [hit_of_match rfl rfl] at key
        omega
      · rw [hit_of_name_ne hn] at key
        have := h n
        omega

theorem dir_remove_preserves_unique (s : List DirEntry) (name : String)
    (oi : Nat → Option InodeInfo) (wo : Bool) (h : ∀ n, countName s n ≤ 1) :
    ∀ n, countName (dir_remove s name oi wo).2 n ≤ 1 := by
  rcases dir_remove_cases s name oi wo with heq | ⟨e, ofs, hl, heq⟩
  · rw [heq]; exact h
  · have h2 : (dir_remove s name oi wo).2 =
        writeEntry s ofs { e with in_use := false } := by rw [heq]
    rw [h2]
    intro n
    obtain ⟨hget, _, _⟩ := lookup_some_spec s name e ofs hl
    have hcl : ({ e with in_use := false } : DirEntry).in_use = false := rfl
    have key := writeEntry_countName ({ e with in_use := false } : DirEntry) n s ofs e hget
    rw [hit_of_not_in_use n hcl] at key
    have := h n
    omega

theorem applyOp_preserves_unique (s : List DirEntry) (op : Op)
    (h : ∀ n, countName s n ≤ 1) : ∀ n, countName (applyOp s op).2 n ≤ 1 := by
  cases op with
  | add nm sec pa wa => exact dir_add_preserves_unique s nm sec pa wa h
  | remove nm oi wo => exact dir_remove_preserves_unique s nm oi wo h

theorem dir_add_keeps_name (s : List DirEntry) (nm : String) (sec : Nat)
    (pa wa : Bool) (n : String) (h : 0 < countName s n) :
    0 < countName (dir_add s nm sec pa wa).2 n := by
  rcases dir_add_cases s nm sec pa wa with heq | ⟨_, _, _, heq⟩
  · rw [heq]; exact h
  · have h2 : (dir_add s nm sec pa wa).2 =
        writeEntry s (firstFreeSlot s) ⟨sec, nm, true⟩ := by rw [heq]
    rw [h2]
    rcases firstFreeSlot_spec s with ⟨hlen, _⟩ | ⟨old, hget, hfree, _⟩
    · rw [hlen, writeEntry_at_length, countName_append]
      omega
    · have key := writeEntry_countName (⟨sec, nm, true⟩ : DirEntry) n s
        (firstFreeSlot s) old hget
      rw [hit_of_not_in_use n hfree] at key
      omega

theorem dir_remove_keeps_name (s : List DirEntry) (nm : String)
    (oi : Nat → Option InodeInfo) (wo : Bool) (n : String)
    (h : 0 < countName s n)
    (hne : (dir_remove s nm oi wo).1 = true → nm ≠ n) :
    0 < countName (dir_remove s nm oi wo).2 n := by
  rcases dir_remove_cases s nm oi wo with heq | ⟨e, ofs, hl, heq⟩
  · rw [heq]; exact h
  · have hsucc : (dir_remove s nm oi wo).1 = true := by rw [heq]
    have hnm : nm ≠ n := hne hsucc
    have h2 : (dir_remove s nm oi wo).2 =
        writeEntry s ofs { e with in_use := false } := by rw [heq]
    rw [h2]
    obtain ⟨hget, _, hname⟩ := lookup_some_spec s nm e ofs hl
    have hcl : ({ e with in_use := false } : DirEntry).in_use = false := rfl
    have key := writeEntry_countName ({ e with in_use := false } : DirEntry) n s ofs e hget
    rw [hit_of_not_in_use n hcl] at key
    rw [hit_of_name_ne (show e.name ≠ n by rw [hname]; exact hnm)] at key
    omega

theorem runOps_keeps_name (name : String) :
    ∀ (ops : List Op) (s : List DirEntry), 0 < countName s name →
      noRemoveSuccess name s ops → 0 < countName (runOps s ops) name := by
  intro ops
  induction ops with
  | nil => intro s h _; exact h
  | cons op ops ih =>
    intro s h hno
    obtain ⟨h1, h2⟩ := hno
    apply ih (applyOp s op).2 ?_ h2
    cases op with
    | add nm sec pa wa => exact dir_add_keeps_name s nm sec pa wa name h
    | remove nm oi wo =>
      apply dir_remove_keeps_name s nm oi wo name h
      intro hsucc heq
      have hfalse := h1 oi wo (by rw [heq])
      have hfalse' : (dir_remove s nm oi wo).1 = false := hfalse
      rw [hsucc] at hfalse'
      simp at hfalse'

theorem dir_add_success_lookup (s : List DirEntry) (name : String) (sec : Nat)
    (pa wa : Bool) (h : (dir_add s name sec pa wa).1 = true) :
    lookup (dir_add s name sec pa wa).2 name =
      some (⟨sec, name, true⟩, firstFreeSlot s) := by
  rcases dir_add_cases s name sec pa wa with heq | ⟨hnone, _, _, heq⟩
  · rw [heq] at h; simp at h
  · have h2 : (dir_add s name sec pa wa).2 =
        writeEntry s (firstFreeSlot s) ⟨sec, name, true⟩ := by rw [heq]
    rw [h2]
    exact lookup_writeEntry_hit name ⟨sec, name, true⟩ rfl rfl s (firstFreeSlot s)
      (firstFreeSlot_le s) ((lookup_eq_none_iff s name).mp hnone)

theorem dir_add_fails_of_lookup_isSome (s : List DirEntry) (name : String)
    (sec : Nat) (pa wa : Bool) (h : (lookup s name).isSome) :
    (dir_add s name sec pa wa).1 = false := by
  rcases dir_add_cases s name sec pa wa with heq | ⟨hnone, _, _, _⟩
  · rw [heq]
  · rw [hnone] at h; cases h

theorem flushTok_mem (acc : List Char) (t : String) (h : t ∈ flushTok acc) :
    t ≠ "" := by
  unfold flushTok at h
  split at h
  · cases h
  next hacc =>
    simp only [List.mem_singleton] at h
    subst h
    intro hcontra
    have hrev : acc.reverse = ([] : List Char) := congrArg String.data hcontra
    exact hacc (by simpa using hrev)

theorem tokenizeAux_mem_ne_nil :
    ∀ (cs acc : List Char) (t : String), t ∈ tokenizeAux cs acc → t ≠ "" := by
  intro cs
  induction cs with
  | nil => intro acc t h; exact flushTok_mem acc t h
  | cons c cs ih =>
    intro acc t h
    unfold tokenizeAux at h
    split at h
    · rcases List.mem_append.mp h with h' | h'
      · exact flushTok_mem acc t h'
      · exact ih [] t h'
    · exact ih (c :: acc) t h

theorem tokenize_mem_ne_nil (path : String) (t : String) (h : t ∈ tokenize path) :
    t ≠ "" :=
  tokenizeAux_mem_ne_nil path.data [] t h

theorem lastTok_isSome (a : String) (l : List String) :
    ∃ t, lastTok (a :: l) = some t := by
  induction l generalizing a with
  | nil => exact ⟨a, rfl⟩
  | cons b m ih =>
    obtain ⟨t, ht⟩ := ih b
    exact ⟨t, ht⟩

theorem lastTok_mem : ∀ (l : List String) (t : String), lastTok l = some t → t ∈ l := by
  intro l
  induction l with
  | nil => intro t h; cases h
  | cons a l ih =>
    intro t h
    cases l with
    | nil =>
      have ha : a = t := by simpa [lastTok] using h
      subst ha
      exact List.mem_singleton_self a
    | cons b m =>
      have h' : lastTok (b :: m) = some t := h
      exact List.mem_cons_of_mem a (ih t h')

theorem consoleChunksRest_spec :
    ∀ (fuel : Nat) (buf : List Nat), buf.length ≤ fuel →
      (consoleChunksRest buf).flatten = buf ∧
      ((consoleChunksRest buf).all fun c => decide (c.length ≤ 512)) = true := by
  intro fuel
  induction fuel with
  | zero =>
    intro buf hb
    have hnil : buf = [] := List.length_eq_zero.mp (by omega)
    subst hnil
    unfold consoleChunksRest
    simp
  | succ n ih =>
    intro buf hb
    unfold consoleChunksRest
    by_cases hlen : buf.length > 512
    · rw [if_pos hlen]
      have hdrop : (buf.drop 512).length ≤ n := by
        simp only [List.length_drop]; omega
      obtain ⟨hj, ha⟩ := ih (buf.drop 512) hdrop
      constructor
      · rw [List.flatten_cons, hj]
        exact List.take_append_drop 512 buf
      · rw [List.all_cons, ha]
        simp [List.length_take]
    · rw [if_neg hlen]
      constructor
      · simp
      · simp
        omega

theorem consoleChunks_spec (buf : List Nat) :
    (consoleChunks buf).flatten = buf ∧
    ((consoleChunks buf).all fun c => decide (c.length ≤ 512)) = true := by
  unfold consoleChunks
  by_cases h : buf.length < 512
  · rw [if_pos h]
    constructor
    · simp
    · simp
      omega
  · rw [if_neg h]
    exact consoleChunksRest_spec buf.length buf le_rfl

theorem consoleWritten_eq_length (buf : List Nat) :
    consoleWritten buf = buf.length := by
  unfold consoleWritten
  calc ((consoleChunks buf).map List.length).sum
      = (consoleChunks buf).flatten.length := (List.length_flatten _).symm
    _ = buf.length := by rw [(consoleChunks_spec buf).1]

/-- C1: dir_remove returns false and leaves the entry table unchanged
whenever a guard fails: the name is not found by lookup; the target is a
directory whose open-count through this operation exceeds 1; the target is
the reserved root id (a directory, per the data model); or the target is a
directory with at least one in-use entry.  The root conjunct carries no
emptiness or open-count hypothesis: remove on the root id fails in every
state. -/
theorem C1_dir_remove_guards :
    ∀ (s : List DirEntry) (name : String) (oi : Nat → Option InodeInfo) (wo : Bool),
    (lookup s name = none → dir_remove s name oi wo = (false, s)) ∧
    (∀ e ofs ino, lookup s name = some (e, ofs) → oi e.inode_sector = some ino →
      ino.is_dir = true → ino.open_cnt > 1 → dir_remove s name oi wo = (false, s)) ∧
    (∀ e ofs ino, lookup s name = some (e, ofs) → oi e.inode_sector = some ino →
      ino.is_dir = true → e.inode_sector = ROOT_DIR_SECTOR →
      dir_remove s name oi wo = (false, s)) ∧
    (∀ e ofs ino, lookup s name = some (e, ofs) → oi e.inode_sector = some ino →
      ino.is_dir = true → dir_is_empty ino.entries = false →
      dir_remove s name oi wo = (false, s)) := by
  intro s name oi wo
  refine ⟨?_, ?_, ?_, ?_⟩
  · intro hl
    unfold dir_remove
    rw [hl]
  · intro e ofs ino hl ho hdir hcnt
    unfold dir_remove
    simp only [hl, ho]
    rw [if_pos ⟨hdir, hcnt⟩]
  · intro e ofs ino hl ho hdir hroot
    unfold dir_remove
    simp only [hl, ho]
    by_cases g1 : ino.is_dir = true ∧ ino.open_cnt > 1
    · rw [if_pos g1]
    · rw [if_neg g1, if_pos ⟨hdir, hroot⟩]
  · intro e ofs ino hl ho hdir hemp
    unfold dir_remove
    simp only [hl, ho]
    by_cases g1 : ino.is_dir = true ∧ ino.open_cnt > 1
    · rw [if_pos g1]
    · rw [if_neg g1]
      by_cases g2 : ino.is_dir = true ∧ e.inode_sector = ROOT_DIR_SECTOR
      · rw [if_pos g2]
      · rw [if_neg g2, if_pos ⟨hdir, hemp⟩]

theorem C1_dir_remove_guards_witness :
    lookup [⟨1, "d", true⟩] "d" = some (⟨1, "d", true⟩, 0) ∧
    dir_remove [⟨1, "d", true⟩] "d"
      (fun n => if n = 1 then some ⟨true, 5, 1, []⟩ else none) true =
      (false, [⟨1, "d", true⟩]) :=
  ⟨by decide,
    (C1_dir_remove_guards [⟨1, "d", true⟩] "d"
      (fun n => if n = 1 then some ⟨true, 5, 1, []⟩ else none) true).2.2.1
      ⟨1, "d", true⟩ 0 ⟨true, 5, 1, []⟩ (by decide) rfl rfl rfl⟩

/-- C2 counterexample: in a filesystem where the root directory (sector 1)
holds a plain file f (sector 2), resolving the path f/x finds f as an
intermediate component, f is not a directory and a component remains, yet
get_containing_dir does not fail: it returns a handle on the unchanged
current directory.  The claim says resolution fails with not-a-directory. -/
theorem C2_no_notdir_failure :
    lookup [⟨2, "f", true⟩] "f" = some (⟨2, "f", true⟩, 0) ∧
    (FS.mk (fun n =>
      if n = 1 then some ⟨true, 1, 1, [⟨2, "f", true⟩]⟩
      else if n = 2 then some ⟨false, 1, 1, []⟩
      else none)).inodes 2 = some ⟨false, 1, 1, []⟩ ∧
    get_containing_dir (FS.mk (fun n =>
      if n = 1 then some ⟨true, 1, 1, [⟨2, "f", true⟩]⟩
      else if n = 2 then some ⟨false, 1, 1, []⟩
      else none)) (some 1) "f/x" = GcdRes.ok 1 := by
  refine ⟨by decide, by decide, ?_⟩
  decide

/-- C2 amended: for every component except the last, the resolution loop
behaves as claimed for the dot component, the dot-dot component and the
lookup of ordinary components (including replacing the handle when the
target is a directory) — but when the component resolves to a plain file
while components remain, the file is closed and resolution continues with
the current directory unchanged, instead of failing with not-a-directory. -/
theorem C2_resolution_loop :
    ∀ (fs : FS) (d : Nat) (dino : InodeInfo) (t next : String) (rest : List String),
    (gcdLoop fs (some (d, dino)) ("." :: next :: rest) =
      gcdLoop fs (some (d, dino)) (next :: rest)) ∧
    (fs.inodes dino.parent = none →
      gcdLoop fs (some (d, dino)) (".." :: next :: rest) = GcdRes.fail) ∧
    (∀ p, fs.inodes dino.parent = some p → p.is_dir = true →
      gcdLoop fs (some (d, dino)) (".." :: next :: rest) =
        gcdLoop fs (some (dino.parent, p)) (next :: rest)) ∧
    (t ≠ "." → t ≠ ".." → lookup dino.entries t = none →
      gcdLoop fs (some (d, dino)) (t :: next :: rest) = GcdRes.fail) ∧
    (∀ e ofs ino, t ≠ "." → t ≠ ".." → lookup dino.entries t = some (e, ofs) →
      fs.inodes e.inode_sector = some ino → ino.is_dir = true →
      gcdLoop fs (some (d, dino)) (t :: next :: rest) =
        gcdLoop fs (some (e.inode_sector, ino)) (next :: rest)) ∧
    (∀ e ofs ino, t ≠ "." → t ≠ ".." → lookup dino.entries t = some (e, ofs) →
      fs.inodes e.inode_sector = some ino → ino.is_dir = false →
      gcdLoop fs (some (d, dino)) (t :: next :: rest) =
        gcdLoop fs (some (d, dino)) (next :: rest)) := by
  intro fs d dino t next rest
  refine ⟨?_, ?_, ?_, ?_, ?_, ?_⟩
  · simp [gcdLoop]
  · intro hpar
    simp only [gcdLoop, hpar]
    rw [if_neg (show ¬(".." : String) = "." by decide), if_pos trivial]
  · intro p hpar hdir
    simp only [gcdLoop, hpar]
    rw [if_neg (show ¬(".." : String) = "." by decide), if_pos trivial, if_pos hdir]
  · intro ht1 ht2 hl
    simp only [gcdLoop, hl]
    rw [if_neg ht1, if_neg ht2]
  · intro e ofs ino ht1 ht2 hl hio hdir
    simp only [gcdLoop, hl, hio]
    rw [if_neg ht1, if_neg ht2, if_pos hdir]
  · intro e ofs ino ht1 ht2 hl hio hdir
    simp only [gcdLoop, hl, hio]
    rw [if_neg ht1, if_neg ht2, if_neg (by rw [hdir]; exact Bool.false_ne_true)]

theorem C2_resolution_loop_witness :
    lookup [⟨2, "f", true⟩] "f" = some (⟨2, "f", true⟩, 0) ∧
    gcdLoop (FS.mk (fun n =>
        if n = 1 then some ⟨true, 1, 1, [⟨2, "f", true⟩]⟩
        else if n = 2 then some ⟨false, 1, 1, []⟩
        else none))
      (some (1, ⟨true, 1, 1, [⟨2, "f", true⟩]⟩)) ["f", "x"] =
    gcdLoop (FS.mk (fun n =>
        if n = 1 then some ⟨true, 1, 1, [⟨2, "f", true⟩]⟩
        else if n = 2 then some ⟨false, 1, 1, []⟩
        else none))
      (some (1, ⟨true, 1, 1, [⟨2, "f", true⟩]⟩)) ["x"] :=
  ⟨by decide,
    (C2_resolution_loop (FS.mk (fun n =>
        if n = 1 then some ⟨true, 1, 1, [⟨2, "f", true⟩]⟩
        else if n = 2 then some ⟨false, 1, 1, []⟩
        else none)) 1 ⟨true, 1, 1, [⟨2, "f", true⟩]⟩ "f" "x" []).2.2.2.2.2
      ⟨2, "f", true⟩ 0 ⟨false, 1, 1, []⟩ (by decide) (by decide) (by decide) rfl rfl⟩

/-- C3: every table reachable through the operations satisfies the
uniqueness invariant (at most one in-use entry per name), and after a
successful add of a name, any further add of the same name keeps failing
across any sequence of operations containing no successful remove of that
name. -/
theorem C3_unique_names :
    (∀ s, Reachable s → uniqueNames s) ∧
    (∀ (s : List DirEntry) (name : String) (A B : Nat) (pa wa pb wb : Bool)
      (ops : List Op),
      (dir_add s name A pa wa).1 = true →
      noRemoveSuccess name (dir_add s name A pa wa).2 ops →
      (dir_add (runOps (dir_add s name A pa wa).2 ops) name B pb wb).1 = false) := by
  constructor
  · intro s hs
    rw [uniqueNames_iff]
    induction hs with
    | init => intro n; simp [countName_nil]
    | step s' op hs' ih => exact applyOp_preserves_unique s' op ih
  · intro s name A B pa wa pb wb ops hadd hno
    apply dir_add_fails_of_lookup_isSome
    apply lookup_isSome_of_countName_pos
    exact runOps_keeps_name name ops (dir_add s name A pa wa).2
      (countName_pos_of_lookup_some (dir_add_success_lookup s name A pa wa hadd)) hno

theorem C3_unique_names_witness :
    (dir_add [] "a" 7 true true).1 = true ∧
    (dir_add (runOps (dir_add [] "a" 7 true true).2 []) "a" 8 true true).1 = false :=
  ⟨by decide,
    C3_unique_names.2 [] "a" 7 8 true true true true [] (by decide) trivial⟩

/-- C4: a successful add of a name with target X makes lookup of that name
return the added entry (target X, at the first free slot); and under the
uniqueness invariant, after a successful remove of a name, lookup of that
name returns none. -/
theorem C4_round_trip :
    ∀ (s : List DirEntry) (name : String) (X : Nat) (pa wa : Bool)
      (oi : Nat → Option InodeInfo) (wo : Bool),
    ((dir_add s name X pa wa).1 = true →
      lookup (dir_add s name X pa wa).2 name =
        some (⟨X, name, true⟩, firstFreeSlot s)) ∧
    (uniqueNames s → (dir_remove s name oi wo).1 = true →
      lookup (dir_remove s name oi wo).2 name = none) := by
  intro s name X pa wa oi wo
  constructor
  · exact dir_add_success_lookup s name X pa wa
  · intro hu hrem
    rcases dir_remove_cases s name oi wo with heq | ⟨e, ofs, hl, heq⟩
    · rw [heq] at hrem
      simp at hrem
    · have h2 : (dir_remove s name oi wo).2 =
          writeEntry s ofs { e with in_use := false } := by rw [heq]
      rw [h2, lookup_none_iff_countName]
      obtain ⟨hget, hin, hname⟩ := lookup_some_spec s name e ofs hl
      have hpos : 0 < countName s name := countName_pos_of_lookup_some hl
      have hle : countName s name ≤ 1 := (uniqueNames_iff s).mp hu name
      have hcl : ({ e with in_use := false } : DirEntry).in_use = false := rfl
      have key := writeEntry_countName ({ e with in_use := false } : DirEntry)
        name s ofs e hget
      rw [hit_of_not_in_use name hcl, hit_of_match hin hname] at key
      omega

theorem C4_round_trip_witness :
    (dir_add [] "a" 7 true true).1 = true ∧
    lookup (dir_add [] "a" 7 true true).2 "a" = some (⟨7, "a", true⟩, 0) ∧
    uniqueNames [⟨3, "b", true⟩] ∧
    (dir_remove [⟨3, "b", true⟩] "b" (fun _ => some ⟨false, 1, 1, []⟩) true).1 = true ∧
    lookup (dir_remove [⟨3, "b", true⟩] "b" (fun _ => some ⟨false, 1, 1, []⟩) true).2 "b" =
      none :=
  ⟨by decide,
    (C4_round_trip [] "a" 7 true true (fun _ => none) true).1 (by decide),
    by decide,
    by decide,
    (C4_round_trip [⟨3, "b", true⟩] "b" 0 true true
      (fun _ => some ⟨false, 1, 1, []⟩) true).2 (by decide) (by decide)⟩

/-- C5: dir_add fails (table unchanged) on an empty name, an over-long
name, a duplicate name, a rejected parent link, or a short write; on
success it writes the record at the first slot with in_use clear when one
exists and otherwise appends at end-of-stream. -/
theorem C5_dir_add :
    ∀ (s : List DirEntry) (name : String) (sec : Nat) (pa wa : Bool),
    (name = "" → dir_add s name sec pa wa = (false, s)) ∧
    (name.length > NAME_MAX → dir_add s name sec pa wa = (false, s)) ∧
    ((lookup s name).isSome → dir_add s name sec pa wa = (false, s)) ∧
    (pa = false → dir_add s name sec pa wa = (false, s)) ∧
    (wa = false → dir_add s name sec pa wa = (false, s)) ∧
    (name ≠ "" → name.length ≤ NAME_MAX → lookup s name = none → pa = true →
      wa = true →
      dir_add s name sec pa wa =
        (true, writeEntry s (firstFreeSlot s) ⟨sec, name, true⟩) ∧
      ((firstFreeSlot s = s.length ∧ ∀ e ∈ s, e.in_use = true) ∨
       (∃ old, s.get? (firstFreeSlot s) = some old ∧ old.in_use = false ∧
         ∀ j, j < firstFreeSlot s → ∀ e, s.get? j = some e → e.in_use = true))) := by
  intro s name sec pa wa
  refine ⟨?_, ?_, ?_, ?_, ?_, ?_⟩
  · intro h
    unfold dir_add
    rw [if_pos (Or.inl h)]
  · intro h
    unfold dir_add
    rw [if_pos (Or.inr h)]
  · intro h
    rcases dir_add_cases s name sec pa wa with heq | ⟨hnone, _, _, _⟩
    · exact heq
    · rw [hnone] at h
      cases h
  · intro h
    rcases dir_add_cases s name sec pa wa with heq | ⟨_, hpa, _, _⟩
    · exact heq
    · rw [h] at hpa
      cases hpa
  · intro h
    rcases dir_add_cases s name sec pa wa with heq | ⟨_, _, hwa, _⟩
    · exact heq
    · rw [h] at hwa
      cases hwa
  · intro h1 h2 h3 h4 h5
    refine ⟨?_, firstFreeSlot_spec s⟩
    unfold dir_add
    rw [if_neg (by push_neg; exact ⟨h1, by omega⟩)]
    rw [h3, h4, h5]
    simp

theorem C5_dir_add_witness :
    lookup [⟨9, "b", true⟩] "c" = none ∧
    dir_add [⟨9, "b", true⟩] "c" 3 true true =
      (true, writeEntry [⟨9, "b", true⟩] (firstFreeSlot [⟨9, "b", true⟩]) ⟨3, "c", true⟩) :=
  ⟨by decide,
    ((C5_dir_add [⟨9, "b", true⟩] "c" 3 true true).2.2.2.2.2
      (by decide) (by decide) (by decide) rfl rfl).1⟩

/-- C6 counterexample: the path consisting of the single component dot
yields the leaf name dot, not the empty string, and the separator-only
path yields no leaf at all (the source calls strlen on a NULL token
there), so leaf extraction is neither empty-string-valued nor total on
the claimed paths. -/
theorem C6_leaf_counterexample :
    get_file_name "." = some "." ∧ some "." ≠ some "" ∧ get_file_name "/" = none := by
  refine ⟨by decide, by decide, by decide⟩

/-- C6 amended: a path with no component (only separators or empty) has no
leaf: tokenization is empty, get_file_name hits the NULL token (modeled
none) and get_containing_dir reads an uninitialized variable (modeled
undef).  Whenever a leaf is produced it is the path's last component and is
never the empty string; in particular a path of only dot and dot-dot
components yields the final dot or dot-dot as its leaf. -/
theorem C6_leaf_name :
    ∀ (path : String),
    (tokenize path = [] ↔ get_file_name path = none) ∧
    (tokenize path = [] → ∀ (fs : FS) (cwd : Option Nat),
      get_containing_dir fs cwd path = GcdRes.undef) ∧
    (∀ t, get_file_name path = some t → t ∈ tokenize path ∧ t ≠ "") ∧
    (tokenize path ≠ [] → (∀ t ∈ tokenize path, t = "." ∨ t = "..") →
      ∃ t, get_file_name path = some t ∧ (t = "." ∨ t = "..")) := by
  intro path
  refine ⟨?_, ?_, ?_, ?_⟩
  · constructor
    · intro h
      unfold get_file_name
      rw [h]
      rfl
    · intro h
      cases hT : tokenize path with
      | nil => rfl
      | cons a l =>
        unfold get_file_name at h
        rw [hT] at h
        obtain ⟨t, ht⟩ := lastTok_isSome a l
        rw [ht] at h
        cases h
  · intro h fs cwd
    simp only [get_containing_dir, h]
  · intro t ht
    unfold get_file_name at ht
    have hmem := lastTok_mem (tokenize path) t ht
    exact ⟨hmem, tokenize_mem_ne_nil path t hmem⟩
  · intro hne hall
    cases hT : tokenize path with
    | nil => exact absurd hT hne
    | cons a l =>
      obtain ⟨t, ht⟩ := lastTok_isSome a l
      have hmem : t ∈ tokenize path := by
        rw [hT]
        exact lastTok_mem (a :: l) t ht
      refine ⟨t, ?_, hall t hmem⟩
      unfold get_file_name
      rw [hT]
      exact ht

theorem C6_leaf_name_witness :
    tokenize "./.." ≠ [] ∧
    (∃ t, get_file_name "./.." = some t ∧ (t = "." ∨ t = "..")) :=
  ⟨by decide, (C6_leaf_name "./..").2.2.2 (by decide) (by decide)⟩

/-- C7: write on the console descriptor delivers the transfers produced by
the chunking loop: their concatenation is exactly the input buffer (all
bytes, original order), every transfer is at most 512 bytes, and the
returned count equals the buffer length. -/
theorem C7_console_write :
    ∀ (proc : List FileElem) (fwr : Int) (buf : List Nat),
    write_syscall proc fwr 1 buf =
      WriteRes.console (consoleChunks buf) (consoleWritten buf) ∧
    (consoleChunks buf).flatten = buf ∧
    ((consoleChunks buf).all fun c => decide (c.length ≤ 512)) = true ∧
    consoleWritten buf = buf.length := by
  intro proc fwr buf
  refine ⟨?_, (consoleChunks_spec buf).1, (consoleChunks_spec buf).2,
    consoleWritten_eq_length buf⟩
  unfold write_syscall
  rw [if_neg (by decide), if_pos rfl]

/-- C8 evaluation at the failing input: the stack stores fd 2 at esp+1, the
process owns directory descriptor 2 whose table has one in-use entry named
a, so readdir on the stored fd would succeed; but syscall_handler passes
the stack-slot address esp+1 itself as the fd, so the dispatched call finds
no descriptor and returns false. -/
theorem C8_handler_passes_address :
    (UserFrame.mk 1000 (fun a => if a = 1001 then 2 else 0)).mem 1001 = 2 ∧
    readdir_sys [⟨2, true, 3, [⟨4, "a", true⟩], 0⟩] 2 = (true, some "a") ∧
    handle_readdir (UserFrame.mk 1000 (fun a => if a = 1001 then 2 else 0))
      [⟨2, true, 3, [⟨4, "a", true⟩], 0⟩] = (false, none) := by
  refine ⟨by decide, by decide, by decide⟩

/-- C9 evaluation at the failing input: descriptor 2 is open on inode 5,
and the claim says the inumber syscall returns 5.  The inumber function,
declared bool, returns true (any nonzero id collapses to 1), and the
handler passes the stack-slot address esp+1 as the fd, so the dispatched
call returns false; the id 5 is never returned. -/
theorem C9_inumber_degenerate :
    (UserFrame.mk 2000 (fun a => if a = 2001 then 2 else 0)).mem 2001 = 2 ∧
    (find_file_elem [⟨2, false, 5, [], 0⟩] 2).map FileElem.inum = some 5 ∧
    inumber_sys [⟨2, false, 5, [], 0⟩] 2 = true ∧
    handle_inumber (UserFrame.mk 2000 (fun a => if a = 2001 then 2 else 0))
      [⟨2, false, 5, [], 0⟩] = false := by
  refine ⟨by decide, by decide, by decide, by decide⟩

/-- C10: for any fd other than 0 and 1 that is absent from the calling
process's descriptor table, write terminates the process with exit status
-1 instead of returning a sentinel. -/
theorem C10_write_unknown_fd_exits :
    ∀ (proc : List FileElem) (fwr : Int) (fd : Int) (buf : List Nat),
    fd ≠ 0 → fd ≠ 1 → find_file_elem proc fd = none →
    write_syscall proc fwr fd buf = WriteRes.exited (-1) := by
  intro proc fwr fd buf h0 h1 hf
  unfold write_syscall
  rw [if_neg h0, if_neg h1, hf]

theorem C10_write_unknown_fd_exits_witness :
    find_file_elem [] 5 = none ∧
    write_syscall [] 0 5 [1, 2, 3] = WriteRes.exited (-1) :=
  ⟨by decide, C10_write_unknown_fd_exits [] 0 5 [1, 2, 3] (by decide) (by decide) rfl⟩

end OSV
